import Mathlib

/-!
Verification of the MetaSV SV-interval consensus-merging engine.

The orchestration code lives in `src/metasv/main.py` (`run_metasv`).  The
interval data model and the merging primitives (`SVInterval`,
`interval_overlaps_interval_list`, `merge_intervals` from `sv_interval.py`)
are not part of the available sources, so they are modelled from the
specification (spec.md §3, §4.1, §4.2, §4.4); each such definition carries a
doc comment starting with `Modelled from the spec:`.

Conventions: `stop` models the Python attribute `end` (a Lean keyword);
`rho` models the parameter `overlap_ratio`; coordinates are integers and
the reciprocal-overlap thresholds are rationals, with the division form
`overlap / length >= rho` rendered multiplicatively as
`rho * length <= overlap` (equivalent whenever `length > 0`, which is
forced by `overlap > 0`); the latter inequality is in turn rendered by
cross-multiplication with `rho`'s reduced numerator and denominator
(`ratMulLe`, with the bridging lemma `ratMulLe_iff`), and chromosome
names are ordered by their character-code lists (`chromKey`), keeping
every definition kernel-computable.
-/

deriving instance DecidableEq for Except

namespace MetaSV

/-- Modelled from the spec: the IntervalRecord / `SVInterval` value type of §3 —
chromosome, 0-based half-open span, SV type tag, stored SV length, source
tool-name set, positional wiggle, precision and validation flags. -/
structure SVInterval where
  chrom : String
  start : Int
  stop : Int
  sv_type : String
  length : Int
  sources : Finset String
  wiggle : Int
  is_precise : Bool
  is_validated : Bool
deriving DecidableEq

/-- Overlap length of the two spans, `min(a.end, b.end) - max(a.start, b.start)`
from §4.1. -/
def overlapLen (a b : SVInterval) : Int :=
  min a.stop b.stop - max a.start b.start

/-- The threshold test `rho * x ≤ y` (the spec's `y / x ≥ rho` for positive
`x`), cross-multiplied with `rho`'s reduced numerator and denominator so that
it is kernel-computable; `ratMulLe_iff` below proves the equivalence. -/
def ratMulLe (rho : ℚ) (x y : Int) : Prop :=
  rho.num * x ≤ y * (rho.den : Int)

instance instDecRatMulLe (rho : ℚ) (x y : Int) : Decidable (ratMulLe rho x y) := by
  unfold ratMulLe
  infer_instance

/-- Modelled from the spec: `OverlapPredicate.matches` (§4.1) in its
asymmetric-threshold form used by `overlaps_any`; `rs` applies to `a`'s length
and `ro` to `b`'s.  Point (insertion) records match by start distance within
the larger wiggle; other records match by reciprocal overlap at the given
thresholds or by both endpoint deltas lying within the larger wiggle.  The
chromosome test makes the caller-side same-chromosome precondition explicit. -/
def matchesP (rs ro : ℚ) (a b : SVInterval) : Prop :=
  a.chrom = b.chrom ∧
  ((a.sv_type = "INS" ∧ b.sv_type = "INS" ∧
      |a.start - b.start| ≤ max a.wiggle b.wiggle) ∨
   (¬(a.sv_type = "INS" ∧ b.sv_type = "INS") ∧
     ((0 < overlapLen a b ∧
        ratMulLe rs a.length (overlapLen a b) ∧
        ratMulLe ro b.length (overlapLen a b)) ∨
      (|a.start - b.start| ≤ max a.wiggle b.wiggle ∧
       |a.stop - b.stop| ≤ max a.wiggle b.wiggle))))

instance instDecMatchesP (rs ro : ℚ) (a b : SVInterval) :
    Decidable (matchesP rs ro a b) := by
  unfold matchesP
  infer_instance

/-- Modelled from the spec: `interval_overlaps_interval_list` /
`overlaps_any(interval, list, ratio_self, ratio_other)` of §4.1. -/
def overlapsAny (x : SVInterval) (l : List SVInterval) (rs ro : ℚ) : Prop :=
  ∃ m ∈ l, matchesP rs ro x m

instance instDecOverlapsAny (x : SVInterval) (l : List SVInterval) (rs ro : ℚ) :
    Decidable (overlapsAny x l rs ro) :=
  List.decidableBEx _ l

/-- Chromosome names compared as their character-code lists (the
lexicographic string order, in kernel-computable form). -/
def chromKey (s : String) : List Nat :=
  s.data.map Char.toNat

/-- Modelled from the spec: the sort key of `ClusterMerger.merge` step 1 (§4.2),
`(start, end)` extended with the chromosome (the pipeline feeds whole-genome
pools into one call, and records of distinct chromosomes never match). -/
def leKey (a b : SVInterval) : Prop :=
  chromKey a.chrom < chromKey b.chrom ∨
    (a.chrom = b.chrom ∧
      (a.start < b.start ∨ (a.start = b.start ∧ a.stop ≤ b.stop)))

instance instDecLeKey : DecidableRel leKey := fun a b => by
  unfold leKey
  infer_instance

instance instTotalLeKey : IsTotal SVInterval leKey where
  total a b := by
    unfold leKey
    rcases lt_trichotomy (chromKey a.chrom) (chromKey b.chrom) with h | h | h
    · exact Or.inl (Or.inl h)
    · have hc : a.chrom = b.chrom := by
        have hchar : Function.Injective Char.toNat := fun c d hcd =>
          Char.ext (UInt32.ext hcd)
        have hdata : (String.data a.chrom) = String.data b.chrom :=
          List.map_injective_iff.mpr hchar h
        exact congrArg String.mk hdata
      rcases lt_trichotomy a.start b.start with h2 | h2 | h2
      · exact Or.inl (Or.inr ⟨hc, Or.inl h2⟩)
      · rcases le_total a.stop b.stop with h3 | h3
        · exact Or.inl (Or.inr ⟨hc, Or.inr ⟨h2, h3⟩⟩)
        · exact Or.inr (Or.inr ⟨hc.symm, Or.inr ⟨h2.symm, h3⟩⟩)
      · exact Or.inr (Or.inr ⟨hc.symm, Or.inl h2⟩)
    · exact Or.inr (Or.inl h)

instance instTransLeKey : IsTrans SVInterval leKey where
  trans a b c hab hbc := by
    unfold leKey at hab hbc ⊢
    rcases hab with h1 | ⟨h1, h1'⟩
    · rcases hbc with h2 | ⟨h2, _⟩
      · exact Or.inl (h1.trans h2)
      · exact Or.inl (h2 ▸ h1)
    · rcases hbc with h2 | ⟨h2, h2'⟩
      · refine Or.inl ?_
        rw [h1]
        exact h2
      · refine Or.inr ⟨h1.trans h2, ?_⟩
        rcases h1' with h3 | ⟨h3, h3'⟩
        · rcases h2' with h4 | ⟨h4, _⟩
          · exact Or.inl (h3.trans h4)
          · exact Or.inl (h4 ▸ h3)
        · rcases h2' with h4 | ⟨h4, h4'⟩
          · exact Or.inl (h3 ▸ h4)
          · exact Or.inr ⟨h3.trans h4, h3'.trans h4'⟩

/-- Modelled from the spec: the absorption step of `ClusterMerger.merge` (§4.2):
extend the running union span, union the source sets, AND the precision flags,
keep the minimum wiggle among members, recompute the length from the span. -/
def absorb (u r : SVInterval) : SVInterval where
  chrom := u.chrom
  start := min u.start r.start
  stop := max u.stop r.stop
  sv_type := u.sv_type
  length := max u.stop r.stop - min u.start r.start
  sources := u.sources ∪ r.sources
  wiggle := min u.wiggle r.wiggle
  is_precise := u.is_precise && r.is_precise
  is_validated := u.is_validated && r.is_validated

/-- Modelled from the spec: the left-to-right sweep of `ClusterMerger.merge`
(§4.2), maintaining one open cluster `cur`; a record matching the running
union is absorbed, otherwise the cluster is emitted and the record seeds a
new one. -/
def mergeGo (rho : ℚ) : SVInterval → List SVInterval → List SVInterval
  | cur, [] => [cur]
  | cur, r :: rest =>
    if matchesP rho rho cur r then mergeGo rho (absorb cur r) rest
    else cur :: mergeGo rho r rest

/-- Modelled from the spec: `merge_intervals` / `ClusterMerger.merge` (§4.2):
sort by the key, then sweep once. -/
def merge_intervals (rho : ℚ) (l : List SVInterval) : List SVInterval :=
  match List.insertionSort leKey l with
  | [] => []
  | r :: rest => mergeGo rho r rest

/-- Pool of a single SV type: concatenation of each tool's intra-tool merged
records, as built by the first-level merging loop of
`src/metasv/main.py` lines 222-226. -/
def typePool (rho : ℚ) (toolLists : List (List SVInterval)) : List SVInterval :=
  (toolLists.map (merge_intervals rho)).flatten

/-- The partition loop of `src/metasv/main.py` lines 235-239: records that
overlap the anchor set well are appended to the second component
(`intervals2` in the code), the others to the first (`intervals1`). -/
def splitPool (rho : ℚ) (anchors : List SVInterval) (pool : List SVInterval) :
    List SVInterval × List SVInterval :=
  pool.foldl
    (fun acc r =>
      if overlapsAny r anchors rho rho then (acc.1, acc.2 ++ [r])
      else (acc.1 ++ [r], acc.2))
    ([], [])

/-- The per-SV-type consensus computation of `src/metasv/main.py` lines
218-241: intra-tool merges, pooled; anchor merge of the pool; partition of
the pool by well-overlap against the anchors; result is
`merge_intervals intervals1 ++ merge_intervals intervals2`. -/
def consensusForType (rho : ℚ) (toolLists : List (List SVInterval)) :
    List SVInterval :=
  let pool := typePool rho toolLists
  let anchors := merge_intervals rho pool
  let parts := splitPool rho anchors pool
  merge_intervals rho parts.1 ++ merge_intervals rho parts.2

/-- The consensus computation as the specification sentences behind claim C1
word it: partition the pool into `well_supported` (records overlapping the
anchor set well) and `poorly_supported`, and return
`merge(well_supported) ++ merge(poorly_supported)` in that order. -/
def consensusForTypeSpec (rho : ℚ) (toolLists : List (List SVInterval)) :
    List SVInterval :=
  let pool := typePool rho toolLists
  let anchors := merge_intervals rho pool
  let wellPoor := pool.partition (fun r => decide (overlapsAny r anchors rho rho))
  merge_intervals rho wellPoor.1 ++ merge_intervals rho wellPoor.2

/-- The wiggle assignment of `src/metasv/main.py` lines 138-142: insertion
records get `max(inswiggle, wiggle)`, every other record gets `wiggle`. -/
def set_wiggle (wiggle inswiggle : Int) (i : SVInterval) : SVInterval :=
  if i.sv_type = "INS" then { i with wiggle := max inswiggle wiggle }
  else { i with wiggle := wiggle }

/-- A record produced by a native-format reader (`PindelReader`,
`BreakDancerReader`, `CNVnatorReader`); `to_sv_interval` is `none` exactly for
the records the reader flags to be skipped
(`src/metasv/main.py` lines 126-131). -/
structure RawRecord where
  sv_type : String
  to_sv_interval : Option SVInterval

/-- The per-record body of the native loading loop of
`src/metasv/main.py` lines 126-144: skip unconvertible records; keep a record
only if it avoids the gap intervals, its chromosome is whitelisted and its
length reaches `minsvlen`; set the wiggle on kept records. -/
def keepNative (gaps : List SVInterval) (whitelist : List String)
    (minsvlen wiggle inswiggle : Int) (rec : RawRecord) : Option SVInterval :=
  match RawRecord.to_sv_interval rec with
  | none => none
  | some interval =>
    if ¬ overlapsAny interval gaps 0 0 ∧ interval.chrom ∈ whitelist then
      if interval.length < minsvlen then none
      else some (set_wiggle wiggle inswiggle interval)
    else none

/-- The native loading loop of `src/metasv/main.py` lines 125-144 over a
reader's record stream. -/
def loadNative (gaps : List SVInterval) (whitelist : List String)
    (minsvlen wiggle inswiggle : Int) (recs : List RawRecord) :
    List SVInterval :=
  recs.filterMap (keepNative gaps whitelist minsvlen wiggle inswiggle)

/-- Modelled from the spec: `SVInterval.do_validation` (§4.4 `validate`) —
sets `is_validated` when at least two source tools support the record (the
exact multi-tool threshold is configurable policy per §9; the documented
default of two is used).  The overlap-ratio argument is kept to mirror the
call shape `interval.do_validation(overlap_ratio)`. -/
def do_validation (_rho : ℚ) (r : SVInterval) : SVInterval :=
  { r with is_validated := decide (2 ≤ r.sources.card) }

/-- Modelled from the spec: `SVInterval.fix_pos` (§4.4 `normalize`) — clamp
`start` to 0, enforce a span of at least 1 for non-point types and recompute
the length from the span, and collapse insertion records to a single
representative position (the minimum start). -/
def fix_pos (r : SVInterval) : SVInterval :=
  if r.sv_type = "INS" then
    { r with start := max r.start 0, stop := max r.start 0 }
  else
    { r with
      start := max r.start 0
      stop := max r.stop (max r.start 0 + 1)
      length := max r.stop (max r.start 0 + 1) - max r.start 0 }

/-- The finalization loop of `src/metasv/main.py` lines 243-247: every final
interval is validated and position-fixed before being handed to
serialization. -/
def finalize (rho : ℚ) (l : List SVInterval) : List SVInterval :=
  l.map (fun r => fix_pos (do_validation rho r))

/-- The configuration surface of `run_metasv`
(`src/metasv/main.py` lines 37-41): the per-tool input file lists, whether
the reference FASTA is indexed, and the numeric merge parameters.  `rho`
models `overlap_ratio`. -/
structure Config where
  pindel_vcf : List String
  pindel_native : List String
  breakdancer_vcf : List String
  breakdancer_native : List String
  breakseq_vcf : List String
  cnvnator_vcf : List String
  cnvnator_native : List String
  gatk_vcf : List String
  reference_indexed : Bool
  wiggle : Int
  inswiggle : Int
  minsvlen : Int
  rho : ℚ

/-- The control flow of `run_metasv` (`src/metasv/main.py` lines 74-99 and
218-247): return 1 when no VCF input is given among the four checked lists,
return 1 when the reference is not indexed, and otherwise run the per-type
consensus over the loaded record pools and finalize the result.  `byType`
holds, for each SV type, the per-tool record lists of that type. -/
def run_metasv (cfg : Config) (byType : List (List (List SVInterval))) :
    Except Nat (List SVInterval) :=
  if (cfg.pindel_vcf ++ cfg.breakdancer_vcf ++ cfg.breakseq_vcf ++
      cfg.cnvnator_vcf).isEmpty then
    Except.error 1
  else if !cfg.reference_indexed then
    Except.error 1
  else
    Except.ok (finalize cfg.rho ((byType.map (consensusForType cfg.rho)).flatten))

/-- Union of the source-tool sets over a record list. -/
def sourcesUnion (l : List SVInterval) : Finset String :=
  l.foldr (fun r acc => r.sources ∪ acc) ∅

/-- The shape in which records of one SV type reach the merge stage of
`run_metasv`: a common type tag `t`, the common per-type wiggle `w` set by
the loading stage (`src/metasv/main.py` lines 138-142), and, for non-point
types, the stored length agreeing with the span (§3: derived length
`end - start` except for insertions). -/
def ElemOK (t : String) (w : Int) (r : SVInterval) : Prop :=
  r.sv_type = t ∧ r.wiggle = w ∧ (t = "INS" ∨ r.length = r.stop - r.start)

instance instDecElemOK (t : String) (w : Int) (r : SVInterval) :
    Decidable (ElemOK t w r) := by
  unfold ElemOK
  infer_instance

/-- The default overlap threshold 1/2 as a reduced-form rational literal
(kept in constructor form so that it is kernel-computable; `half_eq_div`
identifies it with `1/2`). -/
def half : ℚ := ⟨1, 2, by decide, by decide⟩

/-- A concrete record, for witnesses and counterexamples. -/
def mkRec (c : String) (s e : Int) (t : String) (len : Int) (src : String)
    (w : Int) : SVInterval :=
  { chrom := c, start := s, stop := e, sv_type := t, length := len,
    sources := {src}, wiggle := w, is_precise := true, is_validated := false }

/-- Deletion call [0, 100) from tool T1 (bridging scenario, small record). -/
def cSmall : SVInterval := mkRec "1" 0 100 "DEL" 100 "T1" 50

/-- Deletion call [0, 200) from tool T2 (bridging scenario, middle record). -/
def cMid : SVInterval := mkRec "1" 0 200 "DEL" 200 "T2" 50

/-- Deletion call [0, 400) from tool T3 (bridging scenario, large record). -/
def cBig : SVInterval := mkRec "1" 0 400 "DEL" 400 "T3" 50

/-- Per-tool input lists for the bridging scenario: three tools, one deletion
each; `cSmall` chains into the anchor only through `cMid`. -/
def tsBridge : List (List SVInterval) := [[cSmall], [cMid], [cBig]]

/-- Deletion call [0, 1000) from tool T1. -/
def cWide : SVInterval := mkRec "1" 0 1000 "DEL" 1000 "T1" 100

/-- Deletion call [500, 600) from tool T2, nested inside `cWide`. -/
def cNested : SVInterval := mkRec "1" 500 600 "DEL" 100 "T2" 100

/-- Deletion call [100, 250) from tool T1, already normalized. -/
def cPlain : SVInterval := mkRec "1" 100 250 "DEL" 150 "T1" 100

/-- Insertion record with a non-collapsed span [100, 700). -/
def cInsSpan : SVInterval := mkRec "1" 100 700 "INS" 80 "T1" 100

/-- Insertion record at position 5000. -/
def cInsPoint : SVInterval := mkRec "1" 5000 5000 "INS" 80 "T1" 100

/-- Deletion call [2000, 2400) from tool T2. -/
def cFar : SVInterval := mkRec "1" 2000 2400 "DEL" 400 "T2" 100

/-- Deletion call [2000, 2400) from tool T3 (same span as `cFar`). -/
def cFarDup : SVInterval := mkRec "1" 2000 2400 "DEL" 400 "T3" 100

/-- A configuration with an out-of-range `overlap_ratio` of 2, a negative
wiggle, one Pindel VCF given and an indexed reference. -/
def cfgBadParams : Config :=
  { pindel_vcf := ["pindel.vcf"], pindel_native := [],
    breakdancer_vcf := [], breakdancer_native := [],
    breakseq_vcf := [], cnvnator_vcf := [], cnvnator_native := [],
    gatk_vcf := [], reference_indexed := true,
    wiggle := -5, inswiggle := -5, minsvlen := 50, rho := 2 }

/-- A configuration with no VCF input at all but with native files and a GATK
VCF given, and an indexed reference. -/
def cfgNativeOnly : Config :=
  { pindel_vcf := [], pindel_native := ["pindel.txt"],
    breakdancer_vcf := [], breakdancer_native := ["bd.out"],
    breakseq_vcf := [], cnvnator_vcf := [], cnvnator_native := ["cnv.out"],
    gatk_vcf := ["gatk.vcf"], reference_indexed := true,
    wiggle := 100, inswiggle := 100, minsvlen := 50, rho := half }

/-- A native reader record whose conversion succeeds and yields `cPlain`. -/
def rawPlain : RawRecord := { sv_type := "DEL", to_sv_interval := some cPlain }

/-- A configuration with default parameters, one Pindel VCF and an indexed
reference. -/
def cfgDefault : Config :=
  { pindel_vcf := ["pindel.vcf"], pindel_native := [],
    breakdancer_vcf := [], breakdancer_native := [],
    breakseq_vcf := [], cnvnator_vcf := [], cnvnator_native := [],
    gatk_vcf := [], reference_indexed := true,
    wiggle := 100, inswiggle := 100, minsvlen := 50, rho := half }

/-- Per-type record pools (one type, two tools) in one arrival order. -/
def byTypeA : List (List (List SVInterval)) := [[[cWide], [cFar, cFarDup]]]

/-- The same per-type record pools with the second tool's records arriving in
the opposite order. -/
def byTypeB : List (List (List SVInterval)) := [[[cWide], [cFarDup, cFar]]]


/-! Helper lemmas about the merge engine. -/

/-- The literal `half` is the rational one half. -/
theorem half_eq_div : half = 1 / 2 := by
  have h1 : half.num = 1 := rfl
  have h2 : half.den = 2 := rfl
  rw [← Rat.num_div_den half, h1, h2]
  norm_num

/-- The cross-multiplied threshold test coincides with the rational
inequality `rho * x ≤ y` it renders. -/
theorem ratMulLe_iff (rho : ℚ) (x y : Int) :
    ratMulLe rho x y ↔ rho * (x : ℚ) ≤ (y : ℚ) := by
  unfold ratMulLe
  have hden : (0:ℚ) < (rho.den : ℚ) := by exact_mod_cast rho.den_pos
  have hden' : ((rho.den : ℚ)) ≠ 0 := ne_of_gt hden
  have hnum : (rho.num : ℚ) = rho * (rho.den : ℚ) := by
    have h := Rat.num_div_den rho
    calc (rho.num : ℚ) = (rho.num : ℚ) / (rho.den : ℚ) * (rho.den : ℚ) := by
          rw [div_mul_cancel₀ _ hden']
      _ = rho * (rho.den : ℚ) := by rw [h]
  constructor
  · intro h
    have h2 : ((rho.num * x : Int) : ℚ) ≤ ((y * rho.den : Int) : ℚ) :=
      Int.cast_le.mpr h
    push_cast at h2
    rw [hnum] at h2
    have h3 : (rho * (x : ℚ)) * (rho.den : ℚ) ≤ (y : ℚ) * (rho.den : ℚ) := by
      calc (rho * (x : ℚ)) * (rho.den : ℚ) = rho * (rho.den : ℚ) * (x : ℚ) := by ring
        _ ≤ (y : ℚ) * (rho.den : ℚ) := h2
    exact (mul_le_mul_right hden).mp h3
  · intro h
    have h2 : (rho * (x : ℚ)) * (rho.den : ℚ) ≤ (y : ℚ) * (rho.den : ℚ) :=
      (mul_le_mul_right hden).mpr h
    have h3 : (rho.num : ℚ) * (x : ℚ) ≤ (y : ℚ) * ((rho.den : Int) : ℚ) := by
      rw [hnum]
      push_cast
      calc rho * (rho.den : ℚ) * (x : ℚ) = (rho * (x : ℚ)) * (rho.den : ℚ) := by ring
        _ ≤ (y : ℚ) * (rho.den : ℚ) := h2
    exact_mod_cast h3

/-- Two records each `leKey`-below the other agree on the whole sort key. -/
theorem leKey_antisymm_key {a b : SVInterval} (hab : leKey a b) (hba : leKey b a) :
    a.chrom = b.chrom ∧ a.start = b.start ∧ a.stop = b.stop := by
  unfold leKey at hab hba
  rcases hab with h1 | ⟨h1, h1'⟩
  · rcases hba with h2 | ⟨h2, _⟩
    · exact absurd (h1.trans h2) (lt_irrefl _)
    · rw [h2] at h1
      exact absurd h1 (lt_irrefl _)
  · rcases hba with h2 | ⟨_, h2'⟩
    · rw [h1] at h2
      exact absurd h2 (lt_irrefl _)
    · refine ⟨h1, ?_⟩
      rcases h1' with h3 | ⟨h3, h3'⟩
      · rcases h2' with h4 | ⟨h4, _⟩
        · exact absurd (h3.trans h4) (lt_irrefl _)
        · exact absurd h3 (h4 ▸ lt_irrefl _)
      · rcases h2' with h4 | ⟨_, h4'⟩
        · exact absurd h4 (h3 ▸ lt_irrefl _)
        · exact ⟨h3, le_antisymm h3' h4'⟩

/-- Merging the empty list yields the empty list. -/
theorem merge_intervals_nil (rho : ℚ) : merge_intervals rho [] = [] := rfl

/-- A type pool over all-empty tool lists is empty. -/
theorem typePool_nil (rho : ℚ) (ts : List (List SVInterval))
    (h : ∀ l ∈ ts, l = []) : typePool rho ts = [] := by
  induction ts with
  | nil => rfl
  | cons hd tl ih =>
    have hhd := h hd (List.mem_cons_self hd tl)
    have htl : ∀ l ∈ tl, l = [] := fun l hl => h l (List.mem_cons_of_mem _ hl)
    have h2 := ih htl
    simp only [typePool, List.map_cons, List.flatten_cons] at h2 ⊢
    rw [hhd, merge_intervals_nil, h2]
    rfl

/-- Sources-union of a cons. -/
theorem sourcesUnion_cons (r : SVInterval) (l : List SVInterval) :
    sourcesUnion (r :: l) = r.sources ∪ sourcesUnion l := rfl

/-- The sources union is invariant under permutation. -/
theorem sourcesUnion_perm {l1 l2 : List SVInterval} (h : l1.Perm l2) :
    sourcesUnion l1 = sourcesUnion l2 := by
  induction h with
  | nil => rfl
  | cons x _ ih => rw [sourcesUnion_cons, sourcesUnion_cons, ih]
  | swap x y l =>
    rw [sourcesUnion_cons, sourcesUnion_cons, sourcesUnion_cons,
      sourcesUnion_cons, ← Finset.union_assoc, ← Finset.union_assoc,
      Finset.union_comm y.sources x.sources]
  | trans _ _ ih1 ih2 => rw [ih1, ih2]

/-- The sweep preserves the union of the source sets. -/
theorem sourcesUnion_mergeGo (rho : ℚ) :
    ∀ (rest : List SVInterval) (cur : SVInterval),
      sourcesUnion (mergeGo rho cur rest) = cur.sources ∪ sourcesUnion rest := by
  intro rest
  induction rest with
  | nil => intro cur; rfl
  | cons r rest ih =>
    intro cur
    by_cases h : matchesP rho rho cur r
    · simp only [mergeGo, if_pos h, ih, sourcesUnion_cons]
      show (cur.sources ∪ r.sources) ∪ _ = _
      rw [Finset.union_assoc]
    · simp only [mergeGo, if_neg h, sourcesUnion_cons, ih]

/-- Every record reachable from the sweep state ends up inside the span of
some emitted cluster. -/
theorem mergeGo_covers (rho : ℚ) :
    ∀ (rest : List SVInterval) (cur r : SVInterval),
      (r ∈ rest ∨ (cur.start ≤ r.start ∧ r.stop ≤ cur.stop)) →
      ∃ m ∈ mergeGo rho cur rest, m.start ≤ r.start ∧ r.stop ≤ m.stop := by
  intro rest
  induction rest with
  | nil =>
    intro cur r h
    rcases h with h | h
    · exact absurd h (List.not_mem_nil r)
    · exact ⟨cur, by simp [mergeGo], h⟩
  | cons x rest ih =>
    intro cur r h
    by_cases hm : matchesP rho rho cur x
    · have h' : r ∈ rest ∨
          ((absorb cur x).start ≤ r.start ∧ r.stop ≤ (absorb cur x).stop) := by
        rcases h with h | h
        · rcases List.mem_cons.mp h with rfl | h2
          · exact Or.inr ⟨min_le_right cur.start r.start, le_max_right cur.stop r.stop⟩
          · exact Or.inl h2
        · exact Or.inr ⟨le_trans (min_le_left _ _) h.1, le_trans h.2 (le_max_left _ _)⟩
      have hres := ih (absorb cur x) r h'
      simpa only [mergeGo, if_pos hm] using hres
    · rcases h with h | h
      · rcases List.mem_cons.mp h with rfl | h2
        · obtain ⟨m, hmem, hc⟩ := ih r r (Or.inr ⟨le_refl _, le_refl _⟩)
          refine ⟨m, ?_, hc⟩
          simp only [mergeGo, if_neg hm]
          exact List.mem_cons_of_mem _ hmem
        · obtain ⟨m, hmem, hc⟩ := ih x r (Or.inl h2)
          refine ⟨m, ?_, hc⟩
          simp only [mergeGo, if_neg hm]
          exact List.mem_cons_of_mem _ hmem
      · refine ⟨cur, ?_, h⟩
        simp only [mergeGo, if_neg hm]
        exact List.mem_cons_self _ _

/-- The partition loop is the pair of filters over the pool. -/
theorem splitPool_eq_filters (rho : ℚ) (anchors pool : List SVInterval) :
    splitPool rho anchors pool =
      (pool.filter (fun r => !(decide (overlapsAny r anchors rho rho))),
       pool.filter (fun r => decide (overlapsAny r anchors rho rho))) := by
  have hgo : ∀ (p : List SVInterval) (acc : List SVInterval × List SVInterval),
      p.foldl
        (fun acc r =>
          if overlapsAny r anchors rho rho then (acc.1, acc.2 ++ [r])
          else (acc.1 ++ [r], acc.2)) acc =
      (acc.1 ++ p.filter (fun r => !(decide (overlapsAny r anchors rho rho))),
       acc.2 ++ p.filter (fun r => decide (overlapsAny r anchors rho rho))) := by
    intro p
    induction p with
    | nil => intro acc; simp
    | cons r p ih =>
      intro acc
      by_cases h : overlapsAny r anchors rho rho
      · rw [List.foldl_cons, if_pos h, ih]
        simp [h, List.filter_cons, List.append_assoc]
      · rw [List.foldl_cons, if_neg h, ih]
        simp [h, List.filter_cons, List.append_assoc]
  have := hgo pool ([], [])
  simpa [splitPool] using this

/-! Theorems for the claims. -/

/-- C1 counterexample: in the bridging scenario the engine emits the merge of
the poorly-supported records before the merge of the well-supported ones, so
the order stated by the claim (well-supported first) does not match the code. -/
theorem c1_counterexample :
    consensusForTypeSpec half tsBridge ≠ consensusForType half tsBridge := by
  decide

/-- C1 amended: the engine merges each tool's records separately, pools the
results, merges the pool into anchors, partitions the pool by individual
reciprocal overlap against the anchors, and returns the merge of the
poorly-supported records followed by the merge of the well-supported
records (the code appends well-overlapping records to `intervals2`, which is
merged second). -/
theorem c1_amended_swap (rho : ℚ) (ts : List (List SVInterval)) :
    consensusForType rho ts =
      merge_intervals rho
        ((typePool rho ts).filter
          (fun r =>
            !(decide
              (overlapsAny r (merge_intervals rho (typePool rho ts)) rho rho)))) ++
      merge_intervals rho
        ((typePool rho ts).filter
          (fun r =>
            decide
              (overlapsAny r (merge_intervals rho (typePool rho ts)) rho rho))) := by
  simp only [consensusForType, splitPool_eq_filters]

/-- C2 counterexample: a nested deletion ends up inside the spans of two
distinct output records of the same merge call, so "exactly one" fails. -/
theorem c2_counterexample :
    cNested ∈ [cWide, cNested] ∧
    ((merge_intervals half [cWide, cNested]).filter
      (fun m => decide (m.start ≤ cNested.start ∧ cNested.stop ≤ m.stop))).length
      = 2 := by
  decide

/-- C2 amended: every input record's span lies within the span of at least one
output record of the same merge call (spans of distinct outputs may nest, so
containment need not be unique). -/
theorem c2_amended_coverage (rho : ℚ) (l : List SVInterval) (r : SVInterval)
    (hr : r ∈ l) :
    ∃ m ∈ merge_intervals rho l, m.start ≤ r.start ∧ r.stop ≤ m.stop := by
  have hr' : r ∈ List.insertionSort leKey l :=
    (List.perm_insertionSort leKey l).mem_iff.mpr hr
  unfold merge_intervals
  cases hs : List.insertionSort leKey l with
  | nil => rw [hs] at hr'; exact absurd hr' (List.not_mem_nil r)
  | cons x rest =>
    rw [hs] at hr'
    rcases List.mem_cons.mp hr' with rfl | h2
    · exact mergeGo_covers rho rest r r (Or.inr ⟨le_refl _, le_refl _⟩)
    · exact mergeGo_covers rho rest x r (Or.inl h2)

/-- C2 witness: the coverage theorem applied to a concrete one-record call. -/
theorem c2_witness :
    cWide ∈ [cWide] ∧
    ∃ m ∈ merge_intervals half [cWide],
      m.start ≤ cWide.start ∧ cWide.stop ≤ m.stop :=
  ⟨by decide, c2_amended_coverage half [cWide] cWide (by decide)⟩

/-- C3: a merge call preserves the union of the source-tool sets, and the
record built by absorbing a list of contributors carries exactly the union of
the seed's and the contributors' source sets. -/
theorem c3_provenance (rho : ℚ) (l : List SVInterval) :
    sourcesUnion (merge_intervals rho l) = sourcesUnion l ∧
    ∀ (seed : SVInterval) (ms : List SVInterval),
      (ms.foldl absorb seed).sources = seed.sources ∪ sourcesUnion ms := by
  constructor
  · unfold merge_intervals
    cases hs : List.insertionSort leKey l with
    | nil =>
      have hp := List.perm_insertionSort leKey l
      rw [hs] at hp
      rw [List.Perm.eq_nil hp.symm]
    | cons r rest =>
      rw [sourcesUnion_mergeGo, ← sourcesUnion_cons]
      have hp := List.perm_insertionSort leKey l
      rw [hs] at hp
      exact sourcesUnion_perm hp
  · intro seed ms
    induction ms generalizing seed with
    | nil => simp [sourcesUnion]
    | cons r ms ih =>
      rw [List.foldl_cons, ih, sourcesUnion_cons]
      show (seed.sources ∪ r.sources) ∪ _ = _
      rw [Finset.union_assoc]

/-- C5 counterexample: with `overlap_ratio = 2` (outside `(0,1]`) and a
negative wiggle, `run_metasv` still performs the merge and produces merged
output instead of rejecting the run. -/
theorem c5_counterexample :
    run_metasv cfgBadParams [[[cPlain]]] = Except.ok [cPlain] := by
  decide

/-- C5 amended: `run_metasv` performs no validation of `overlap_ratio` or
`wiggle`; the only pre-merge fatal checks are the absence of all four VCF
input lists and an unindexed reference, and whenever those pass the merge is
performed for any parameter values. -/
theorem c5_amended_no_param_check (cfg : Config)
    (byType : List (List (List SVInterval)))
    (h1 : (cfg.pindel_vcf ++ cfg.breakdancer_vcf ++ cfg.breakseq_vcf ++
      cfg.cnvnator_vcf).isEmpty = false)
    (h2 : cfg.reference_indexed = true) :
    run_metasv cfg byType =
      Except.ok
        (finalize cfg.rho ((byType.map (consensusForType cfg.rho)).flatten)) := by
  unfold run_metasv
  rw [h1, h2]
  simp

/-- C5 witness: the amended theorem at the concrete bad configuration. -/
theorem c5_witness :
    (cfgBadParams.pindel_vcf ++ cfgBadParams.breakdancer_vcf ++
      cfgBadParams.breakseq_vcf ++ cfgBadParams.cnvnator_vcf).isEmpty = false ∧
    cfgBadParams.reference_indexed = true ∧
    run_metasv cfgBadParams [[[cPlain]]] =
      Except.ok
        (finalize cfgBadParams.rho
          (([[[cPlain]]].map (consensusForType cfgBadParams.rho)).flatten)) :=
  ⟨by decide, by decide, c5_amended_no_param_check cfgBadParams [[[cPlain]]]
    (by decide) (by decide)⟩

/-- C6 counterexample: finalization changes a record's observable state — an
insertion with a non-collapsed span is rewritten by `fix_pos`, so validation
plus finalization do not leave existing records unchanged. -/
theorem c6_counterexample :
    fix_pos (do_validation half cInsSpan) ≠ cInsSpan := by
  decide

/-- C6 amended: validation and finalization rewrite a record's coordinates,
length and flags in place (which is why the per-tool output stage deepcopies
records first), but they never change its chromosome, SV type, source set,
or wiggle; only the explicit merge operation builds new records. -/
theorem c6_amended_frame (rho : ℚ) (r : SVInterval) :
    (fix_pos (do_validation rho r)).chrom = r.chrom ∧
    (fix_pos (do_validation rho r)).sv_type = r.sv_type ∧
    (fix_pos (do_validation rho r)).sources = r.sources ∧
    (fix_pos (do_validation rho r)).wiggle = r.wiggle ∧
    (fix_pos (do_validation rho r)).is_precise = r.is_precise := by
  unfold fix_pos do_validation
  by_cases h : r.sv_type = "INS" <;> simp [h]

/-- C7: an SV type whose record pool is empty after filtering yields zero
merged records; the engine is total and signals no error. -/
theorem c7_empty_pool (rho : ℚ) (ts : List (List SVInterval))
    (h : ∀ l ∈ ts, l = []) : consensusForType rho ts = [] := by
  have hp := typePool_nil rho ts h
  simp [consensusForType, hp, merge_intervals_nil, splitPool]

/-- C7 witness: two tools, both with empty pools for the type. -/
theorem c7_witness :
    (∀ l ∈ ([[], []] : List (List SVInterval)), l = []) ∧
    consensusForType half [[], []] = [] :=
  ⟨by decide, c7_empty_pool half [[], []] (by decide)⟩

/-- C8: a convertible native record is excluded exactly when it overlaps a
gap interval, its chromosome is not whitelisted, or its length is below
`minsvlen`; a record passing all three filters reaches the merge-stage pool
(with its wiggle set). -/
theorem c8_native_filter (gaps : List SVInterval) (wl : List String)
    (msl w iw : Int) (rec : RawRecord) (i : SVInterval)
    (h : RawRecord.to_sv_interval rec = some i)
    (recs : List RawRecord) (hm : rec ∈ recs) :
    (keepNative gaps wl msl w iw rec = none ↔
      (overlapsAny i gaps 0 0 ∨ i.chrom ∉ wl ∨ i.length < msl)) ∧
    (¬(overlapsAny i gaps 0 0 ∨ i.chrom ∉ wl ∨ i.length < msl) →
      set_wiggle w iw i ∈ loadNative gaps wl msl w iw recs) := by
  have hk : keepNative gaps wl msl w iw rec =
      (if ¬ overlapsAny i gaps 0 0 ∧ i.chrom ∈ wl then
        if i.length < msl then none else some (set_wiggle w iw i)
      else none) := by
    unfold keepNative
    rw [h]
  constructor
  · rw [hk]
    by_cases h1 : overlapsAny i gaps 0 0 <;> by_cases h2 : i.chrom ∈ wl <;>
      by_cases h3 : i.length < msl <;> simp [h1, h2, h3]
  · intro hpass
    push_neg at hpass
    refine List.mem_filterMap.mpr ⟨rec, hm, ?_⟩
    rw [hk, if_pos ⟨hpass.1, hpass.2.1⟩, if_neg (not_lt.mpr hpass.2.2)]

/-- C8 witness: the filter theorem at a concrete convertible record that
passes all three filters. -/
theorem c8_witness :
    (keepNative [] ["1"] 50 100 150 rawPlain = none ↔
      (overlapsAny cPlain [] 0 0 ∨ cPlain.chrom ∉ ["1"] ∨ cPlain.length < 50)) ∧
    (¬(overlapsAny cPlain [] 0 0 ∨ cPlain.chrom ∉ ["1"] ∨ cPlain.length < 50) →
      set_wiggle 100 150 cPlain ∈ loadNative [] ["1"] 50 100 150 [rawPlain]) :=
  c8_native_filter [] ["1"] 50 100 150 rawPlain cPlain rfl [rawPlain]
    (List.mem_cons_self _ _)

/-- C9 counterexample: with the default parameters (`wiggle = 100`,
`inswiggle = 100`, `src/metasv/main.py` line 41) an insertion's wiggle equals
a deletion's wiggle, so it is not larger by default. -/
theorem c9_counterexample :
    (set_wiggle 100 100 cInsPoint).wiggle = 100 ∧
    (set_wiggle 100 100 cPlain).wiggle = 100 ∧
    ¬((set_wiggle 100 100 cPlain).wiggle < (set_wiggle 100 100 cInsPoint).wiggle) := by
  decide

/-- C9 amended: insertion records get wiggle `max(inswiggle, wiggle)` and all
other records get `wiggle`, so an insertion's wiggle is at least as large as
— but with the default parameters equal to, not larger than — a
non-insertion's. -/
theorem c9_amended_wiggle (w iw : Int) (r s : SVInterval)
    (hr : r.sv_type = "INS") (hs : s.sv_type ≠ "INS") :
    (set_wiggle w iw r).wiggle = max iw w ∧
    (set_wiggle w iw s).wiggle = w ∧
    (set_wiggle w iw s).wiggle ≤ (set_wiggle w iw r).wiggle := by
  unfold set_wiggle
  rw [if_pos hr, if_neg hs]
  exact ⟨rfl, rfl, le_max_right iw w⟩

/-- C9 witness: the amended theorem at concrete insertion and deletion
records with `inswiggle = 150`. -/
theorem c9_witness :
    (set_wiggle 100 150 cInsPoint).wiggle = max 150 100 ∧
    (set_wiggle 100 150 cPlain).wiggle = 100 ∧
    (set_wiggle 100 150 cPlain).wiggle ≤ (set_wiggle 100 150 cInsPoint).wiggle :=
  c9_amended_wiggle 100 150 cInsPoint cPlain rfl (by decide)

/-- C10: with all four checked VCF lists empty, `run_metasv` returns 1 and
performs no merging, regardless of the native input lists and `gatk_vcf`. -/
theorem c10_vcf_guard (cfg : Config) (byType : List (List (List SVInterval)))
    (h1 : cfg.pindel_vcf = []) (h2 : cfg.breakdancer_vcf = [])
    (h3 : cfg.breakseq_vcf = []) (h4 : cfg.cnvnator_vcf = []) :
    run_metasv cfg byType = Except.error 1 := by
  simp [run_metasv, h1, h2, h3, h4]

/-- C10 witness: a configuration with native files and a GATK VCF but no
checked VCF input is still rejected with return value 1. -/
theorem c10_witness :
    cfgNativeOnly.pindel_native ≠ [] ∧ cfgNativeOnly.gatk_vcf ≠ [] ∧
    run_metasv cfgNativeOnly [[[cPlain]]] = Except.error 1 :=
  ⟨by decide, by decide,
    c10_vcf_guard cfgNativeOnly [[[cPlain]]] rfl rfl rfl rfl⟩

/-! Determinism of the merge under permutation of the input (claim C4). -/

/-- Record equality componentwise. -/
theorem svinterval_ext {a b : SVInterval} (h1 : a.chrom = b.chrom)
    (h2 : a.start = b.start) (h3 : a.stop = b.stop)
    (h4 : a.sv_type = b.sv_type) (h5 : a.length = b.length)
    (h6 : a.sources = b.sources) (h7 : a.wiggle = b.wiggle)
    (h8 : a.is_precise = b.is_precise)
    (h9 : a.is_validated = b.is_validated) : a = b := by
  cases a
  cases b
  simp_all

/-- Right-commutativity of the Boolean AND. -/
theorem band_right_comm (x y z : Bool) : ((x && y) && z) = ((x && z) && y) := by
  cases x <;> cases y <;> cases z <;> rfl

/-- Absorbing two records commutes. -/
theorem absorb_absorb_comm (cur a b : SVInterval) :
    absorb (absorb cur a) b = absorb (absorb cur b) a := by
  refine svinterval_ext rfl ?_ ?_ rfl ?_ ?_ ?_ ?_ ?_
  · exact min_right_comm _ _ _
  · exact sup_right_comm _ _ _
  · show max (max cur.stop a.stop) b.stop - min (min cur.start a.start) b.start =
      max (max cur.stop b.stop) a.stop - min (min cur.start b.start) a.start
    rw [sup_right_comm, min_right_comm]
  · exact Finset.union_right_comm _ _ _
  · exact min_right_comm _ _ _
  · exact band_right_comm _ _ _
  · exact band_right_comm _ _ _

/-- Absorbing order is irrelevant for two records with equal chromosome and
type. -/
theorem absorb_comm_ties {a b : SVInterval} (h1 : a.chrom = b.chrom)
    (h4 : a.sv_type = b.sv_type) : absorb a b = absorb b a := by
  refine svinterval_ext h1 ?_ ?_ h4 ?_ ?_ ?_ ?_ ?_
  · exact min_comm _ _
  · exact max_comm _ _
  · show max a.stop b.stop - min a.start b.start =
      max b.stop a.stop - min b.start a.start
    rw [max_comm, min_comm]
  · exact Finset.union_comm _ _
  · exact min_comm _ _
  · exact Bool.and_comm _ _
  · exact Bool.and_comm _ _

/-- Absorption preserves the per-type shape of the sweep state. -/
theorem absorb_ElemOK {t : String} {w : Int} {u r : SVInterval}
    (hu : ElemOK t w u) (hr : ElemOK t w r) : ElemOK t w (absorb u r) := by
  refine ⟨hu.1, ?_, Or.inr rfl⟩
  show min u.wiggle r.wiggle = w
  rw [hu.2.1, hr.2.1, min_self]

/-- The sort relation only looks at the key fields. -/
theorem leKey_congr {a b x : SVInterval}
    (hk : a.chrom = b.chrom ∧ a.start = b.start ∧ a.stop = b.stop) :
    leKey a x ↔ leKey b x := by
  unfold leKey
  rw [hk.1, hk.2.1, hk.2.2]

/-- Two same-type records with equal keys and equal nonnegative wiggle always
match each other. -/
theorem matchesP_ties (rho : ℚ) {t : String} {w : Int} {a b : SVInterval}
    (hw : 0 ≤ w) (ha : ElemOK t w a) (hb : ElemOK t w b)
    (hk : a.chrom = b.chrom ∧ a.start = b.start ∧ a.stop = b.stop) :
    matchesP rho rho a b := by
  obtain ⟨hat, haw, _⟩ := ha
  obtain ⟨hbt, hbw, _⟩ := hb
  refine ⟨hk.1, ?_⟩
  by_cases ht : t = "INS"
  · refine Or.inl ⟨by rw [hat, ht], by rw [hbt, ht], ?_⟩
    rw [hk.2.1, sub_self, abs_zero, haw, hbw, max_self]
    exact hw
  · refine Or.inr ⟨?_, Or.inr ⟨?_, ?_⟩⟩
    · intro hx
      exact ht (by rw [← hat]; exact hx.1)
    · rw [hk.2.1, sub_self, abs_zero, haw, hbw, max_self]
      exact hw
    · rw [hk.2.2, sub_self, abs_zero, haw, hbw, max_self]
      exact hw

/-- Matching against the sweep state only depends on a candidate's key, type,
wiggle, and (for non-point types) length, all shared between key-equal
records of the pipeline shape. -/
theorem matchesP_congr (rho : ℚ) {t : String} {w : Int} {cur a b : SVInterval}
    (hcur : ElemOK t w cur) (ha : ElemOK t w a) (hb : ElemOK t w b)
    (hk : a.chrom = b.chrom ∧ a.start = b.start ∧ a.stop = b.stop) :
    matchesP rho rho cur a ↔ matchesP rho rho cur b := by
  obtain ⟨hct, _, _⟩ := hcur
  obtain ⟨hat, haw, hal⟩ := ha
  obtain ⟨hbt, hbw, hbl⟩ := hb
  obtain ⟨hk1, hk2, hk3⟩ := hk
  by_cases ht : t = "INS"
  · unfold matchesP overlapLen
    rw [hk1, hk2, hk3, hat, hbt, haw, hbw, hct, ht]
    simp
  · have hlen : a.length = b.length := by
      rw [hal.resolve_left ht, hbl.resolve_left ht, hk2, hk3]
    unfold matchesP overlapLen
    rw [hk1, hk2, hk3, hat, hbt, haw, hbw, hlen]

/-- If the sweep state matches a record, then after absorbing that record the
enlarged state still matches any key-equal twin of it: reciprocal overlap
survives because the union span grows by at most the non-overlapping part
(using `rho ≤ 1`), and the wiggle clause survives because the union endpoint
moves towards the twin. -/
theorem matchesP_absorb (rho : ℚ) {t : String} {w : Int} {cur a b : SVInterval}
    (hrho : rho ≤ 1) (hw : 0 ≤ w)
    (hcur : ElemOK t w cur) (ha : ElemOK t w a) (hb : ElemOK t w b)
    (hk : a.chrom = b.chrom ∧ a.start = b.start ∧ a.stop = b.stop)
    (hm : matchesP rho rho cur a) :
    matchesP rho rho (absorb cur a) b := by
  obtain ⟨hct, hcw, hcl⟩ := hcur
  obtain ⟨hat, haw, hal⟩ := ha
  obtain ⟨hbt, hbw, hbl⟩ := hb
  obtain ⟨hk1, hk2, hk3⟩ := hk
  obtain ⟨hchrom, hm2⟩ := hm
  refine ⟨?_, ?_⟩
  · show cur.chrom = b.chrom
    rw [hchrom, hk1]
  · by_cases ht : t = "INS"
    · have hcurI : cur.sv_type = "INS" := by rw [hct, ht]
      have haI : a.sv_type = "INS" := by rw [hat, ht]
      have hbI : b.sv_type = "INS" := by rw [hbt, ht]
      rcases hm2 with ⟨_, _, hd⟩ | ⟨hneg, _⟩
      · refine Or.inl ⟨hcurI, hbI, ?_⟩
        show |min cur.start a.start - b.start| ≤ max (min cur.wiggle a.wiggle) b.wiggle
        rw [hcw, haw, max_self] at hd
        rw [hcw, haw, hbw, min_self, max_self, ← hk2]
        rcases le_total cur.start a.start with hle | hle
        · rw [min_eq_left hle]
          exact hd
        · rw [min_eq_right hle]
          simpa using hw
      · exact absurd ⟨hcurI, haI⟩ hneg
    · have hcurNI : ¬ cur.sv_type = "INS" := by rw [hct]; exact ht
      have hguard : ¬((absorb cur a).sv_type = "INS" ∧ b.sv_type = "INS") := by
        intro hx
        exact hcurNI hx.1
      refine Or.inr ⟨hguard, ?_⟩
      rcases hm2 with ⟨hcI, _⟩ | ⟨_, hrec | hwig⟩
      · exact absurd hcI hcurNI
      · obtain ⟨hov, hra, hrc⟩ := hrec
        have hclen : cur.length = cur.stop - cur.start := hcl.resolve_left ht
        have halen : a.length = a.stop - a.start := hal.resolve_left ht
        have hblen : b.length = b.stop - b.start := hbl.resolve_left ht
        have hov' : overlapLen (absorb cur a) b = a.stop - a.start := by
          show min (max cur.stop a.stop) b.stop - max (min cur.start a.start) b.start =
            a.stop - a.start
          rw [← hk2, ← hk3, min_eq_right (le_max_right _ _),
            max_eq_right (min_le_right _ _)]
        have hovle : overlapLen cur a ≤ a.stop - a.start := by
          have h1 : min cur.stop a.stop ≤ a.stop := min_le_right _ _
          have h2 : a.start ≤ max cur.start a.start := le_max_right _ _
          unfold overlapLen at *
          omega
        have hd : (0:Int) < (rho.den : Int) := by exact_mod_cast rho.den_pos
        have hnd : rho.num ≤ (rho.den : Int) := by
          have h1 := (ratMulLe_iff rho 1 1).mpr (by simpa using hrho)
          simpa [ratMulLe] using h1
        refine Or.inl ⟨?_, ?_, ?_⟩
        · rw [hov']
          have := hovle
          omega
        · show ratMulLe rho (max cur.stop a.stop - min cur.start a.start)
            (overlapLen (absorb cur a) b)
          rw [hov']
          unfold ratMulLe at hra hrc ⊢
          rw [hclen] at hra
          rw [halen] at hrc
          have hiden : max cur.stop a.stop - min cur.start a.start =
              (cur.stop - cur.start) + ((a.stop - a.start) - overlapLen cur a) := by
            unfold overlapLen
            rcases le_total cur.stop a.stop with h1 | h1 <;>
              rcases le_total cur.start a.start with h2 | h2 <;>
                simp [min_eq_left, min_eq_right, max_eq_left, max_eq_right, h1, h2]
          rw [hiden]
          have hkey : overlapLen cur a * ((rho.den : Int) - rho.num) ≤
              (a.stop - a.start) * ((rho.den : Int) - rho.num) :=
            mul_le_mul_of_nonneg_right hovle (by omega)
          nlinarith [hra, hkey]
        · show ratMulLe rho b.length (overlapLen (absorb cur a) b)
          rw [hov', hblen, ← hk2, ← hk3]
          unfold ratMulLe
          have hpos : (0:Int) ≤ a.stop - a.start := by
            have := hovle
            omega
          nlinarith [mul_le_mul_of_nonneg_right hnd hpos]
      · obtain ⟨hws, hwe⟩ := hwig
        rw [hcw, haw, max_self] at hws hwe
        refine Or.inr ⟨?_, ?_⟩
        · show |min cur.start a.start - b.start| ≤ max (min cur.wiggle a.wiggle) b.wiggle
          rw [hcw, haw, hbw, min_self, max_self, ← hk2]
          rcases le_total cur.start a.start with hle | hle
          · rw [min_eq_left hle]
            exact hws
          · rw [min_eq_right hle]
            simpa using hw
        · show |max cur.stop a.stop - b.stop| ≤ max (min cur.wiggle a.wiggle) b.wiggle
          rw [hcw, haw, hbw, min_self, max_self, ← hk3]
          rcases le_total cur.stop a.stop with hle | hle
          · rw [max_eq_right hle]
            simpa using hw
          · rw [max_eq_left hle]
            exact hwe

/-- The sweep is invariant under permutation of its (sorted) input: two
sorted permutations of a same-type, uniform-wiggle record list, consumed from
the same state, emit the same clusters. -/
theorem mergeGo_perm (rho : ℚ) (t : String) (w : Int) (hrho : rho ≤ 1)
    (hw : 0 ≤ w) :
    ∀ (n : Nat) (l1 l2 : List SVInterval) (cur : SVInterval),
      l1.length ≤ n → l1.Perm l2 →
      List.Sorted leKey l1 → List.Sorted leKey l2 →
      (∀ r ∈ l1, ElemOK t w r) → ElemOK t w cur →
      mergeGo rho cur l1 = mergeGo rho cur l2 := by
  intro n
  induction n with
  | zero =>
    intro l1 l2 cur hlen hperm _ _ _ _
    have h1 : l1 = [] := List.length_eq_zero.mp (Nat.le_zero.mp hlen)
    subst h1
    rw [List.Perm.eq_nil hperm.symm]
  | succ n ih =>
    intro l1 l2 cur hlen hperm hs1 hs2 hok hcur
    cases l1 with
    | nil =>
      rw [List.Perm.eq_nil hperm.symm]
    | cons a t1 =>
      cases l2 with
      | nil => exact absurd (List.Perm.eq_nil hperm) (List.cons_ne_nil a t1)
      | cons b t2 =>
        have hs1' : List.Sorted leKey t1 := (List.sorted_cons.mp hs1).2
        have hs2' : List.Sorted leKey t2 := (List.sorted_cons.mp hs2).2
        have hla : ∀ x ∈ t1, leKey a x := (List.sorted_cons.mp hs1).1
        have hlb : ∀ x ∈ t2, leKey b x := (List.sorted_cons.mp hs2).1
        have hokA : ElemOK t w a := hok a (List.mem_cons_self _ _)
        have hok1 : ∀ r ∈ t1, ElemOK t w r := fun r hr =>
          hok r (List.mem_cons_of_mem _ hr)
        have hlt1 : t1.length ≤ n := by
          simp only [List.length_cons] at hlen
          omega
        have hlt2 : t2.length ≤ n := by
          have hl := hperm.length_eq
          simp only [List.length_cons] at hl hlen
          omega
        by_cases hab : a = b
        · subst hab
          have hp' : t1.Perm t2 := hperm.cons_inv
          by_cases hm : matchesP rho rho cur a
          · simp only [mergeGo, if_pos hm]
            exact ih t1 t2 (absorb cur a) hlt1 hp' hs1' hs2' hok1
              (absorb_ElemOK hcur hokA)
          · simp only [mergeGo, if_neg hm]
            rw [ih t1 t2 a hlt1 hp' hs1' hs2' hok1 hokA]
        · have hbmem : b ∈ t1 := by
            have hx : b ∈ a :: t1 := hperm.mem_iff.mpr (List.mem_cons_self b t2)
            rcases List.mem_cons.mp hx with h | h
            · exact absurd h.symm hab
            · exact h
          have hamem : a ∈ t2 := by
            have hx : a ∈ b :: t2 := hperm.mem_iff.mp (List.mem_cons_self a t1)
            rcases List.mem_cons.mp hx with h | h
            · exact absurd h hab
            · exact h
          have hk := leKey_antisymm_key (hla b hbmem) (hlb a hamem)
          have hkab : a.chrom = b.chrom ∧ a.start = b.start ∧ a.stop = b.stop := hk
          have hkba : b.chrom = a.chrom ∧ b.start = a.start ∧ b.stop = a.stop :=
            ⟨hk.1.symm, hk.2.1.symm, hk.2.2.symm⟩
          have hokB : ElemOK t w b := hok1 b hbmem
          have hok2 : ∀ r ∈ t2, ElemOK t w r := fun r hr =>
            hok r (hperm.mem_iff.mpr (List.mem_cons_of_mem _ hr))
          have hperm1 : t1.Perm (b :: t1.erase b) := List.perm_cons_erase hbmem
          have hperm2 : t2.Perm (a :: t2.erase a) := List.perm_cons_erase hamem
          have hse1 : List.Sorted leKey (t1.erase b) :=
            List.Pairwise.sublist (List.erase_sublist _ _) hs1'
          have hse2 : List.Sorted leKey (t2.erase a) :=
            List.Pairwise.sublist (List.erase_sublist _ _) hs2'
          have hsb : List.Sorted leKey (b :: t1.erase b) := by
            rw [List.sorted_cons]
            refine ⟨?_, hse1⟩
            intro x hx
            exact (leKey_congr hkab).mp (hla x (List.mem_of_mem_erase hx))
          have hsa : List.Sorted leKey (a :: t2.erase a) := by
            rw [List.sorted_cons]
            refine ⟨?_, hse2⟩
            intro x hx
            exact (leKey_congr hkba).mp (hlb x (List.mem_of_mem_erase hx))
          have hokE1 : ∀ r ∈ t1.erase b, ElemOK t w r := fun r hr =>
            hok1 r (List.mem_of_mem_erase hr)
          have hepm : (t1.erase b).Perm (t2.erase a) := by
            have h1 := hperm.erase b
            rw [List.erase_cons_head] at h1
            rw [List.erase_cons_tail (by simpa using hab)] at h1
            have h2 := h1.erase a
            rw [List.erase_cons_head] at h2
            exact h2
          have hlen1 : (t1.erase b).length ≤ n := by
            rw [List.length_erase_of_mem hbmem]
            omega
          by_cases hm : matchesP rho rho cur a
          · have hmb : matchesP rho rho cur b :=
              (matchesP_congr rho hcur hokA hokB hkab).mp hm
            have hstep1 : mergeGo rho cur (a :: t1) =
                mergeGo rho (absorb (absorb cur a) b) (t1.erase b) := by
              simp only [mergeGo, if_pos hm]
              rw [ih t1 (b :: t1.erase b) (absorb cur a) hlt1 hperm1 hs1' hsb
                hok1 (absorb_ElemOK hcur hokA)]
              simp only [mergeGo,
                if_pos (matchesP_absorb rho hrho hw hcur hokA hokB hkab hm)]
            have hstep2 : mergeGo rho cur (b :: t2) =
                mergeGo rho (absorb (absorb cur b) a) (t2.erase a) := by
              simp only [mergeGo, if_pos hmb]
              rw [ih t2 (a :: t2.erase a) (absorb cur b) hlt2 hperm2 hs2' hsa
                hok2 (absorb_ElemOK hcur hokB)]
              simp only [mergeGo,
                if_pos (matchesP_absorb rho hrho hw hcur hokB hokA hkba hmb)]
            rw [hstep1, hstep2, absorb_absorb_comm]
            exact ih (t1.erase b) (t2.erase a) _ hlen1 hepm hse1 hse2 hokE1
              (absorb_ElemOK (absorb_ElemOK hcur hokB) hokA)
          · have hmb : ¬ matchesP rho rho cur b := fun hx =>
              hm ((matchesP_congr rho hcur hokA hokB hkab).mpr hx)
            have htie : matchesP rho rho a b := matchesP_ties rho hw hokA hokB hkab
            have htie' : matchesP rho rho b a := matchesP_ties rho hw hokB hokA hkba
            have hstep1 : mergeGo rho cur (a :: t1) =
                cur :: mergeGo rho (absorb a b) (t1.erase b) := by
              simp only [mergeGo, if_neg hm]
              rw [ih t1 (b :: t1.erase b) a hlt1 hperm1 hs1' hsb hok1 hokA]
              simp only [mergeGo, if_pos htie]
            have hstep2 : mergeGo rho cur (b :: t2) =
                cur :: mergeGo rho (absorb b a) (t2.erase a) := by
              simp only [mergeGo, if_neg hmb]
              rw [ih t2 (a :: t2.erase a) b hlt2 hperm2 hs2' hsa hok2 hokB]
              simp only [mergeGo, if_pos htie']
            rw [hstep1, hstep2, absorb_comm_ties hkab.1 (hokA.1.trans hokB.1.symm)]
            have hrec := ih (t1.erase b) (t2.erase a) (absorb b a) hlen1 hepm
              hse1 hse2 hokE1 (absorb_ElemOK hokB hokA)
            rw [hrec]

/-- The sweep started at the heads of two sorted permutations emits the same
clusters. -/
theorem mergeGo_heads (rho : ℚ) (t : String) (w : Int) (hrho : rho ≤ 1)
    (hw : 0 ≤ w) (a b : SVInterval) (t1 t2 : List SVInterval)
    (hperm : (a :: t1).Perm (b :: t2))
    (hs1 : List.Sorted leKey (a :: t1)) (hs2 : List.Sorted leKey (b :: t2))
    (hok : ∀ r ∈ a :: t1, ElemOK t w r) :
    mergeGo rho a t1 = mergeGo rho b t2 := by
  have hs1' : List.Sorted leKey t1 := (List.sorted_cons.mp hs1).2
  have hs2' : List.Sorted leKey t2 := (List.sorted_cons.mp hs2).2
  have hla : ∀ x ∈ t1, leKey a x := (List.sorted_cons.mp hs1).1
  have hlb : ∀ x ∈ t2, leKey b x := (List.sorted_cons.mp hs2).1
  have hokA : ElemOK t w a := hok a (List.mem_cons_self _ _)
  have hok1 : ∀ r ∈ t1, ElemOK t w r := fun r hr =>
    hok r (List.mem_cons_of_mem _ hr)
  have hok2 : ∀ r ∈ t2, ElemOK t w r := fun r hr =>
    hok r (hperm.mem_iff.mpr (List.mem_cons_of_mem _ hr))
  by_cases hab : a = b
  · subst hab
    exact mergeGo_perm rho t w hrho hw t1.length t1 t2 a le_rfl hperm.cons_inv
      hs1' hs2' hok1 hokA
  · have hbmem : b ∈ t1 := by
      have hx : b ∈ a :: t1 := hperm.mem_iff.mpr (List.mem_cons_self b t2)
      rcases List.mem_cons.mp hx with h | h
      · exact absurd h.symm hab
      · exact h
    have hamem : a ∈ t2 := by
      have hx : a ∈ b :: t2 := hperm.mem_iff.mp (List.mem_cons_self a t1)
      rcases List.mem_cons.mp hx with h | h
      · exact absurd h hab
      · exact h
    have hk := leKey_antisymm_key (hla b hbmem) (hlb a hamem)
    have hkba : b.chrom = a.chrom ∧ b.start = a.start ∧ b.stop = a.stop :=
      ⟨hk.1.symm, hk.2.1.symm, hk.2.2.symm⟩
    have hokB : ElemOK t w b := hok1 b hbmem
    have hperm1 : t1.Perm (b :: t1.erase b) := List.perm_cons_erase hbmem
    have hperm2 : t2.Perm (a :: t2.erase a) := List.perm_cons_erase hamem
    have hse1 : List.Sorted leKey (t1.erase b) :=
      List.Pairwise.sublist (List.erase_sublist _ _) hs1'
    have hse2 : List.Sorted leKey (t2.erase a) :=
      List.Pairwise.sublist (List.erase_sublist _ _) hs2'
    have hsb : List.Sorted leKey (b :: t1.erase b) := by
      rw [List.sorted_cons]
      refine ⟨?_, hse1⟩
      intro x hx
      exact (leKey_congr hk).mp (hla x (List.mem_of_mem_erase hx))
    have hsa : List.Sorted leKey (a :: t2.erase a) := by
      rw [List.sorted_cons]
      refine ⟨?_, hse2⟩
      intro x hx
      exact (leKey_congr hkba).mp (hlb x (List.mem_of_mem_erase hx))
    have hokE1 : ∀ r ∈ t1.erase b, ElemOK t w r := fun r hr =>
      hok1 r (List.mem_of_mem_erase hr)
    have hepm : (t1.erase b).Perm (t2.erase a) := by
      have h1 := hperm.erase b
      rw [List.erase_cons_head] at h1
      rw [List.erase_cons_tail (by simpa using hab)] at h1
      have h2 := h1.erase a
      rw [List.erase_cons_head] at h2
      exact h2
    have htie : matchesP rho rho a b := matchesP_ties rho hw hokA hokB hk
    have htie' : matchesP rho rho b a := matchesP_ties rho hw hokB hokA hkba
    have hstep1 : mergeGo rho a t1 = mergeGo rho (absorb a b) (t1.erase b) := by
      rw [mergeGo_perm rho t w hrho hw t1.length t1 (b :: t1.erase b) a le_rfl
        hperm1 hs1' hsb hok1 hokA]
      simp only [mergeGo, if_pos htie]
    have hstep2 : mergeGo rho b t2 = mergeGo rho (absorb b a) (t2.erase a) := by
      rw [mergeGo_perm rho t w hrho hw t2.length t2 (a :: t2.erase a) b le_rfl
        hperm2 hs2' hsa hok2 hokB]
      simp only [mergeGo, if_pos htie']
    rw [hstep1, hstep2, absorb_comm_ties hk.1 (hokA.1.trans hokB.1.symm)]
    exact mergeGo_perm rho t w hrho hw (t1.erase b).length (t1.erase b)
      (t2.erase a) (absorb b a) le_rfl hepm hse1 hse2 hokE1
      (absorb_ElemOK hokB hokA)

/-- A merge call is invariant under permutation of its input list, for
pipeline-shaped pools (one SV type, uniform nonnegative wiggle,
span-consistent lengths) and a threshold of at most one. -/
theorem merge_intervals_perm (rho : ℚ) (t : String) (w : Int) (hrho : rho ≤ 1)
    (hw : 0 ≤ w) (l1 l2 : List SVInterval) (hp : l1.Perm l2)
    (hok : ∀ r ∈ l1, ElemOK t w r) :
    merge_intervals rho l1 = merge_intervals rho l2 := by
  have hs1 := List.sorted_insertionSort leKey l1
  have hs2 := List.sorted_insertionSort leKey l2
  have hsp : (List.insertionSort leKey l1).Perm (List.insertionSort leKey l2) :=
    ((List.perm_insertionSort leKey l1).trans hp).trans
      (List.perm_insertionSort leKey l2).symm
  have hokS : ∀ r ∈ List.insertionSort leKey l1, ElemOK t w r := fun r hr =>
    hok r ((List.mem_insertionSort leKey).mp hr)
  unfold merge_intervals
  cases h1 : List.insertionSort leKey l1 with
  | nil =>
    rw [h1] at hsp
    rw [List.Perm.eq_nil hsp.symm]
  | cons a t1 =>
    rw [h1] at hsp hs1 hokS
    cases h2 : List.insertionSort leKey l2 with
    | nil =>
      rw [h2] at hsp
      exact absurd (List.Perm.eq_nil hsp) (List.cons_ne_nil a t1)
    | cons b t2 =>
      rw [h2] at hsp hs2
      exact mergeGo_heads rho t w hrho hw a b t1 t2 hsp hs1 hs2 hokS

/-- The pooled per-tool merges are invariant under per-tool permutation of
the input records. -/
theorem typePool_perm (rho : ℚ) (t : String) (w : Int) (hrho : rho ≤ 1)
    (hw : 0 ≤ w) :
    ∀ (u1 u2 : List (List SVInterval)), List.Forall₂ List.Perm u1 u2 →
      (∀ l ∈ u1, ∀ r ∈ l, ElemOK t w r) → typePool rho u1 = typePool rho u2 := by
  intro u1 u2 hf
  induction hf with
  | nil => intro _; rfl
  | @cons l1 l2 u1' u2' h1 _ ih =>
    intro hok
    show merge_intervals rho l1 ++ typePool rho u1' =
      merge_intervals rho l2 ++ typePool rho u2'
    rw [merge_intervals_perm rho t w hrho hw l1 l2 h1
        (hok l1 (List.mem_cons_self _ _)),
      ih (fun l hl r hr => hok l (List.mem_cons_of_mem _ hl) r hr)]

/-- The per-type consensus is invariant under per-tool permutation of the
input records. -/
theorem consensusForType_perm (rho : ℚ) (t : String) (w : Int) (hrho : rho ≤ 1)
    (hw : 0 ≤ w) (ts1 ts2 : List (List SVInterval))
    (hperm : List.Forall₂ List.Perm ts1 ts2)
    (hok : ∀ l ∈ ts1, ∀ r ∈ l, ElemOK t w r) :
    consensusForType rho ts1 = consensusForType rho ts2 := by
  have hpool := typePool_perm rho t w hrho hw ts1 ts2 hperm hok
  unfold consensusForType
  rw [hpool]

/-- C4: with a threshold of at most one, presenting the same per-tool,
per-type record multisets to `run_metasv` in different arrival orders yields
identical output — the explicit sort in each merge call neutralizes order,
absorption is commutative on equal-key records, and each pool carries one SV
type with the uniform wiggle set by the loading stage. -/
theorem c4_pipeline_determinism (cfg : Config)
    (byType1 byType2 : List (List (List SVInterval)))
    (hrho : Config.rho cfg ≤ 1)
    (hperm : List.Forall₂ (List.Forall₂ List.Perm) byType1 byType2)
    (hok : ∀ tl ∈ byType1, ∃ t w, (0:Int) ≤ w ∧ ∀ l ∈ tl, ∀ r ∈ l, ElemOK t w r) :
    run_metasv cfg byType1 = run_metasv cfg byType2 := by
  have hmap : ∀ (u1 u2 : List (List (List SVInterval))),
      List.Forall₂ (List.Forall₂ List.Perm) u1 u2 →
      (∀ tl ∈ u1, ∃ t w, (0:Int) ≤ w ∧ ∀ l ∈ tl, ∀ r ∈ l, ElemOK t w r) →
      u1.map (consensusForType (Config.rho cfg)) =
        u2.map (consensusForType (Config.rho cfg)) := by
    intro u1 u2 hf
    induction hf with
    | nil => intro _; rfl
    | @cons tl1 tl2 u1' u2' h1 _ ih =>
      intro hok2
      obtain ⟨t, w, hw, hok3⟩ := hok2 tl1 (List.mem_cons_self _ _)
      simp only [List.map_cons]
      rw [consensusForType_perm (Config.rho cfg) t w hrho hw tl1 tl2 h1 hok3,
        ih (fun tl htl => hok2 tl (List.mem_cons_of_mem _ htl))]
  unfold run_metasv
  rw [hmap byType1 byType2 hperm hok]

/-- C4 witness: the determinism theorem at a concrete two-tool deletion pool
presented in two arrival orders. -/
theorem c4_witness :
    run_metasv cfgDefault byTypeA = run_metasv cfgDefault byTypeB :=
  c4_pipeline_determinism cfgDefault byTypeA byTypeB (by decide)
    (List.Forall₂.cons
      (List.Forall₂.cons (List.Perm.refl [cWide])
        (List.Forall₂.cons (List.Perm.swap cFarDup cFar []) List.Forall₂.nil))
      List.Forall₂.nil)
    (by
      intro tl htl
      have h1 : tl = [[cWide], [cFar, cFarDup]] := List.mem_singleton.mp htl
      subst h1
      exact ⟨"DEL", 100, by decide, by decide⟩)

end MetaSV
